import Mathlib

/-!
# Verification of the battery-log parsing and aggregation core

This file gives a shallow embedding, in Lean 4, of the core of the
`battery_testing_v2` repository (files `parsing.py` and
`generate_report.py`): the offset parser, the battery-history event
tokenizer, the power-consumer section scraper, the wakelock interval
correlator, the cross-snapshot aggregation pipeline and the combined
drain-score table.  Timestamps are embedded as integers counting
milliseconds, `float` values as rationals, Python `None`/missing text as
`Option`, and a Python exception escaping a function as the `none` value
of an `Option` result.  Text is handled as lists of characters; the
regex searches of the source are embedded as explicit leftmost-match
scans with the same backtracking behaviour.  Theorems at the end of the
file settle the specification claims against these definitions.
-/

namespace Battery

/-! ## Basic text utilities mirroring Python primitives -/

/-- Python whitespace class for the regex token matching blanks
(space, tab, newline, carriage return, vertical tab, form feed). -/
def pyIsSpace (c : Char) : Bool :=
  c = ' ' || c = '\t' || c = '\n' || c = '\r' || c = '\x0b' || c = '\x0c'

/-- Numeric value of a run of decimal digit characters, as produced by
the Python conversion of a regex group of digits to a number. -/
def digitsToNat (cs : List Char) : Nat :=
  cs.foldl (fun n c => 10 * n + (c.toNat - 48)) 0

/-- Substring containment on character lists, the semantics of the
Python membership test of one string in another. -/
def listHasSub (pat : List Char) (s : List Char) : Bool :=
  s.tails.any (fun t => pat.isPrefixOf t)

/-- Python strip: remove leading and trailing whitespace. -/
def pyStrip (cs : List Char) : List Char :=
  ((cs.dropWhile pyIsSpace).reverse.dropWhile pyIsSpace).reverse

/-- Split a character list at newline characters (one piece more than
the number of newlines, pieces may be empty). -/
def splitNl : List Char → List (List Char)
  | [] => [[]]
  | '\n' :: cs => [] :: splitNl cs
  | c :: cs =>
    match splitNl cs with
    | [] => [[c]]
    | l :: ls => (c :: l) :: ls

/-- Python splitlines: split on newline characters, with no empty
trailing piece when the text ends in a newline. -/
def splitLinesPy (cs : List Char) : List (List Char) :=
  if cs.isEmpty then []
  else if cs.getLast? = some '\n' then (splitNl cs).dropLast else splitNl cs

/-! ## The offset parser

`parseTime` embeds the source function that decodes a relative-offset
token of shape digits-plus-unit-letter for the four units hour, minute,
second and millisecond.  For one unit, the leftmost digit run that is
immediately followed by the unit letters is taken, exactly as the
regex search for digits before a unit literal behaves: scanning left
to right, a position matches when it starts a digit run whose following
characters begin with the unit letters. -/

/-- Leftmost occurrence of a digit run immediately followed by the
given unit letters; returns the numeric value of the run. -/
def findNumBefore (unit : List Char) : List Char → Option Nat
  | [] => none
  | c :: cs =>
    if c.isDigit && unit.isPrefixOf (cs.dropWhile Char.isDigit) then
      some (digitsToNat (c :: cs.takeWhile Char.isDigit))
    else
      findNumBefore unit cs

/-- Embedding of the source offset parser: each of the four units is
looked up independently, guarded by a character (or substring)
containment test, defaulting to zero; the result is the total offset in
milliseconds (the value of the timedelta built from the four parts). -/
def parseTime (timeStr : List Char) : Int :=
  let cs := pyStrip timeStr
  let h := if cs.contains 'h' then (findNumBefore ['h'] cs).getD 0 else 0
  let m := if cs.contains 'm' then (findNumBefore ['m'] cs).getD 0 else 0
  let s := if cs.contains 's' then (findNumBefore ['s'] cs).getD 0 else 0
  let ms := if listHasSub ['m', 's'] cs then (findNumBefore ['m', 's'] cs).getD 0 else 0
  ((((h * 60 + m) * 60 + s) * 1000 : Nat) + ms : Nat)

/-! ## Calendar arithmetic

The reset-time marker carries an absolute wall-clock stamp which the
source turns into a datetime; event offsets are added to it.  We embed
datetimes as integer milliseconds on a proleptic Gregorian time line,
via the standard civil-days computation. -/

/-- Days since the epoch 1970-01-01 of a civil date (proleptic
Gregorian calendar). -/
def daysFromCivil (y m d : Int) : Int :=
  let y1 : Int := if m ≤ 2 then y - 1 else y
  let era : Int := Int.fdiv y1 400
  let yoe : Int := y1 - era * 400
  let mp : Int := Int.fmod (m + 9) 12
  let doy : Int := Int.fdiv (153 * mp + 2) 5 + d - 1
  let doe : Int := yoe * 365 + Int.fdiv yoe 4 - Int.fdiv yoe 100 + doy
  era * 146097 + doe - 719468

/-- A wall-clock stamp as milliseconds since the epoch. -/
def toEpochMs (y mo d h mi s : Nat) : Int :=
  (((daysFromCivil y mo d * 24 + h) * 60 + mi) * 60 + s) * 1000

/-- Whether a year is a Gregorian leap year. -/
def isLeapYear (y : Nat) : Bool :=
  y % 4 = 0 && (y % 100 ≠ 0 || y % 400 = 0)

/-- Number of days in a month. -/
def daysInMonth (y m : Nat) : Nat :=
  if m = 2 then (if isLeapYear y then 29 else 28)
  else if m = 4 || m = 6 || m = 9 || m = 11 then 30
  else 31

/-- Range validation performed by the strptime call of the source when
it builds a datetime from the reset-time stamp; an out-of-range field
raises there, which the enclosing handler turns into an empty result. -/
def validDate (y mo d h mi s : Nat) : Bool :=
  1 ≤ y && 1 ≤ mo && mo ≤ 12 && 1 ≤ d && d ≤ daysInMonth y mo &&
    h ≤ 23 && mi ≤ 59 && s ≤ 59

/-! ## The battery-history tokenizer -/

/-- Match a stamp of shape `dddd-dd-dd-dd-dd-dd` at the head of the
character list, returning its six numeric fields. -/
def matchStamp : List Char → Option (Nat × Nat × Nat × Nat × Nat × Nat)
  | y1 :: y2 :: y3 :: y4 :: '-' :: o1 :: o2 :: '-' :: d1 :: d2 :: '-' ::
      h1 :: h2 :: '-' :: i1 :: i2 :: '-' :: s1 :: s2 :: _ =>
    if [y1, y2, y3, y4, o1, o2, d1, d2, h1, h2, i1, i2, s1, s2].all Char.isDigit then
      some (digitsToNat [y1, y2, y3, y4], digitsToNat [o1, o2], digitsToNat [d1, d2],
        digitsToNat [h1, h2], digitsToNat [i1, i2], digitsToNat [s1, s2])
    else none
  | _ => none

/-- Leftmost occurrence of the reset-time marker followed by a stamp.
A stamp whose fields fail datetime validation makes the whole scan
fail, matching the exception path of the source (the regex match is
found first, then the strptime call raises). -/
def findResetTime : List Char → Option Int
  | [] => none
  | c :: cs =>
    if "RESET:TIME: ".toList.isPrefixOf (c :: cs) then
      match matchStamp ((c :: cs).drop 12) with
      | some (y, mo, d, h, mi, s) =>
        if validDate y mo d h mi s then some (toEpochMs y mo d h mi s) else none
      | none => findResetTime cs
    else findResetTime cs

/-- Try the header-anchor pattern at the head of the list: an opening
parenthesis, digits, a closing parenthesis, whitespace, exactly three
digits, whitespace.  Returns the characters after the match. -/
def matchAnchorAt (cs : List Char) : Option (List Char) :=
  match cs with
  | '(' :: rest =>
    let ds := rest.takeWhile Char.isDigit
    if ds.isEmpty then none
    else
      match rest.dropWhile Char.isDigit with
      | ')' :: rest2 =>
        let ws := rest2.takeWhile pyIsSpace
        if ws.isEmpty then none
        else
          match rest2.dropWhile pyIsSpace with
          | a :: b :: c :: rest3 =>
            if a.isDigit && b.isDigit && c.isDigit then
              let ws2 := rest3.takeWhile pyIsSpace
              if ws2.isEmpty then none else some (rest3.dropWhile pyIsSpace)
            else none
          | _ => none
      | _ => none
  | _ => none

/-- Leftmost header-anchor match on a line: returns the text before
the match and the text after it, as the source takes the slices before
the match start and after the match end. -/
def findAnchor : List Char → Option (List Char × List Char)
  | [] => none
  | c :: cs =>
    match matchAnchorAt (c :: cs) with
    | some rest => some ([], rest)
    | none =>
      match findAnchor cs with
      | some (pre, rest) => some (c :: pre, rest)
      | none => none

/-- Try the longwake pattern at a position starting with character
`c` followed by `cs`: a sign, the longwake literal, a non-empty
owner-id run up to a colon, and a tag between double quotes (shortest
match).  On success, returns the sign, owner-id, tag and the
characters after the closing quote. -/
def matchLongwakeAt (c : Char) (cs : List Char) :
    Option (Bool × List Char × List Char × List Char) :=
  if c = '+' || c = '-' then
    if "longwake=".toList.isPrefixOf cs then
      if ((cs.drop 9).takeWhile (fun x => x ≠ ':')).isEmpty then none
      else
        match (cs.drop 9).dropWhile (fun x => x ≠ ':') with
        | ':' :: '"' :: rest =>
          match rest.dropWhile (fun x => x ≠ '"') with
          | '"' :: rest2 => some (c = '+', (cs.drop 9).takeWhile (fun x => x ≠ ':'),
              rest.takeWhile (fun x => x ≠ '"'), rest2)
          | _ => none
        | _ => none
    else none
  else none

/-- On a successful longwake match the remaining text is no longer
than the text after the sign character. -/
theorem matchLongwakeAt_length {c : Char} {cs : List Char} {r}
    (h : matchLongwakeAt c cs = some r) : r.2.2.2.length ≤ cs.length := by
  unfold matchLongwakeAt at h
  split at h
  · split at h
    · split at h
      · exact absurd h (by simp)
      · split at h
        next rest heq =>
          split at h
          next rest2 heq2 =>
            injection h with h'
            subst h'
            simp only
            have h1 : rest.length + 2 ≤ (cs.drop 9).length := by
              have := (List.dropWhile_sublist (l := cs.drop 9)
                (fun x => decide (x ≠ ':'))).length_le
              rw [heq] at this
              simpa using this
            have h2 : rest2.length + 1 ≤ rest.length := by
              have := (List.dropWhile_sublist (l := rest)
                (fun x => decide (x ≠ '"'))).length_le
              rw [heq2] at this
              simpa using this
            have h3 : (cs.drop 9).length ≤ cs.length := by
              simp
            omega
          next => exact absurd h (by simp)
        next => exact absurd h (by simp)
    · exact absurd h (by simp)
  · exact absurd h (by simp)

/-- Fuelled scan for longwake occurrences; every step either consumes
one character or one whole match (which by `matchLongwakeAt_length`
consumes at least one character), so fuel equal to the length of the
scanned text suffices for the scan to run to completion. -/
def findLongwakesGo : Nat → List Char → List (Bool × List Char × List Char)
  | 0, _ => []
  | _, [] => []
  | fuel + 1, c :: cs =>
    match matchLongwakeAt c cs with
    | some r => (r.1, r.2.1, r.2.2.1) :: findLongwakesGo fuel r.2.2.2
    | none => findLongwakesGo fuel cs

/-- All non-overlapping longwake occurrences on the text after the
anchor, scanned left to right, continuing after each match (the
semantics of the iterated regex search of the source).  Each hit
yields the sign, owner-id and tag. -/
def findLongwakes (l : List Char) : List (Bool × List Char × List Char) :=
  findLongwakesGo l.length l

/-- A wakelock edge event: owner id, tag, whether it is a start edge,
and its absolute timestamp in milliseconds. -/
structure Edge where
  uid : String
  tag : String
  isStart : Bool
  ts : Int
deriving DecidableEq

/-- Events extracted from one line of the history section: the line
must carry an anchor, the text before the anchor must (after
stripping) begin with a plus sign, and every longwake occurrence after
the anchor yields an edge stamped with the reset epoch plus the parsed
offset. -/
def eventsOfLine (startMs : Int) (line : List Char) : List Edge :=
  match findAnchor line with
  | none => []
  | some (pre, details) =>
    let tsStr := pyStrip pre
    if tsStr.headD ' ' = '+' then
      let t := startMs + parseTime tsStr
      (findLongwakes details).map (fun e =>
        { uid := e.2.1.asString, tag := e.2.2.asString, isStart := e.1, ts := t })
    else []

/-- Embedding of the battery-history parser: missing or unreadable
text, a missing reset-time marker, or an invalid stamp all yield the
empty event list; otherwise every line contributes its events. -/
def parseBatteryHistory (content : Option (List Char)) : List Edge :=
  match content with
  | none => []
  | some cs =>
    match findResetTime cs with
    | none => []
    | some startMs => (splitLinesPy cs).flatMap (eventsOfLine startMs)

/-! ## The power-consumer section parser -/

/-- A power sample: raw extracted component name and its drain. -/
structure Consumer where
  name : String
  powerMah : ℚ
deriving DecidableEq

/-- After a candidate colon: skip whitespace greedily, then require a
non-empty run of digit or dot characters (the numeric group). -/
def numAfter (cs : List Char) : Option (List Char) :=
  let ds := (cs.dropWhile pyIsSpace).takeWhile (fun c => c.isDigit || c = '.')
  if ds.isEmpty then none else some ds

/-- Scan for the first colon preceded by at least one label character
and followed (after optional whitespace) by a digit or dot; returns
the label before the colon and the numeric group, the lazy-group
semantics of the label-colon-number regex of the source. -/
def findColonSplit (acc : List Char) : List Char → Option (List Char × List Char)
  | [] => none
  | c :: cs =>
    if c = ':' && !acc.isEmpty then
      match numAfter cs with
      | some ds => some (acc.reverse, ds)
      | none => findColonSplit (c :: acc) cs
    else findColonSplit (c :: acc) cs

/-- Leftmost match of the indented label-colon-number pattern on one
line: at least two leading whitespace characters, a non-empty lazy
label group, a colon, optional whitespace and a non-empty numeric
group.  When no colon after the whole indent qualifies, the pattern
backtracks into the indent, so with an indent of at least three
blanks whose first following character is a qualifying colon the label
group is the last indent character alone. -/
def baseConsumerMatch (line : List Char) : Option (List Char × List Char) :=
  let w := line.takeWhile pyIsSpace
  let body := line.dropWhile pyIsSpace
  if w.length < 2 then none
  else
    match findColonSplit [] body with
    | some r => some r
    | none =>
      if 3 ≤ w.length then
        match body with
        | ':' :: rest => (numAfter rest).map (fun ds => ([w.getLastD ' '], ds))
        | _ => none
      else none

/-- Python float conversion of a string of digits and dots: at most
one dot and at least one digit overall, otherwise a raised error. -/
def pyFloat (cs : List Char) : Option ℚ :=
  let intPart := cs.takeWhile Char.isDigit
  match cs.dropWhile Char.isDigit with
  | [] => if intPart.isEmpty then none else some (digitsToNat intPart : ℚ)
  | '.' :: frac =>
    if frac.all Char.isDigit && !(intPart.isEmpty && frac.isEmpty) then
      some ((digitsToNat intPart : ℚ) + (digitsToNat frac : ℚ) / (10 : ℚ) ^ frac.length)
    else none
  | _ => none

/-- Leftmost parenthesised group on the label (shortest content): an
opening parenthesis with some closing parenthesis after it. -/
def findParen : List Char → Option (List Char)
  | [] => none
  | '(' :: rest =>
    if rest.contains ')' then some (rest.takeWhile (fun c => c ≠ ')')) else none
  | _ :: rest => findParen rest

/-- Leftmost case-insensitive uid marker followed by whitespace and a
non-empty blank-free token, which is returned. -/
def findUid : List Char → Option (List Char)
  | c1 :: c2 :: c3 :: rest =>
    if c1.toLower = 'u' && c2.toLower = 'i' && c3.toLower = 'd' then
      let ws := rest.takeWhile pyIsSpace
      let tok := (rest.dropWhile pyIsSpace).takeWhile (fun c => !pyIsSpace c)
      if !ws.isEmpty && !tok.isEmpty then some tok
      else findUid (c2 :: c3 :: rest)
    else findUid (c2 :: c3 :: rest)
  | _ => none

/-- Name stored for a sample line: an inner parenthesised name takes
priority, then a uid token, then the stripped full label. -/
def extractName (label : List Char) : String :=
  match findParen label with
  | some inner => inner.asString
  | none =>
    match findUid label with
    | some u => u.asString
    | none => (pyStrip label).asString

/-- Line loop of the power-consumer parser.  The boolean records
whether the section marker has been seen.  A blank line or the
second marker ends the section; capacity and computed-drain lines are
skipped; a numeric group that the float conversion rejects raises,
which the source does not catch, so the whole parse yields `none`. -/
def consumersGo : List (List Char) → Bool → Option (List Consumer)
  | [], _ => some []
  | line :: rest, inSec =>
    if listHasSub "Estimated power use (mAh)".toList line then consumersGo rest true
    else if inSec then
      if (pyStrip line).isEmpty || listHasSub "Per-app mobile ms per packet".toList line then
        some []
      else if listHasSub "Capacity:".toList line || listHasSub "Computed drain:".toList line then
        consumersGo rest inSec
      else
        match baseConsumerMatch line with
        | none => consumersGo rest inSec
        | some r =>
          match pyFloat r.2 with
          | none => none
          | some q => (consumersGo rest inSec).map (fun tl => ⟨extractName r.1, q⟩ :: tl)
    else consumersGo rest false

/-- Embedding of the power-consumer parser: unreadable or missing
text yields the empty sample list (the read is guarded), while a
malformed numeric group raises out of the function (`none`). -/
def parsePowerConsumers : Option (List Char) → Option (List Consumer)
  | none => some []
  | some cs => consumersGo (splitLinesPy cs) false

/-! ## Battery level and the package map -/

/-- Leftmost battery-level marker followed by optional whitespace and
a non-empty digit run. -/
def findLevel : List Char → Option Nat
  | [] => none
  | c :: cs =>
    if "level:".toList.isPrefixOf (c :: cs) then
      let ds := (((c :: cs).drop 6).dropWhile pyIsSpace).takeWhile Char.isDigit
      if ds.isEmpty then findLevel cs else some (digitsToNat ds)
    else findLevel cs

/-- Embedding of the battery-level parser: any failure yields no
reading. -/
def parseBatteryLevel : Option (List Char) → Option Nat
  | none => none
  | some cs => findLevel cs

/-- At a position: whitespace, the uid literal with colon, and a
non-empty digit run, as required between the package name group and
the uid group. -/
def matchUidTokenAt (cs : List Char) : Option (List Char) :=
  if (cs.takeWhile pyIsSpace).isEmpty then none
  else
    let after := cs.dropWhile pyIsSpace
    if "uid:".toList.isPrefixOf after then
      let ds := (after.drop 4).takeWhile Char.isDigit
      if ds.isEmpty then none else some ds
    else none

/-- Lazy package-name group: the shortest prefix whose following text
matches the whitespace-uid-digits pattern. -/
def pkgSplit (acc : List Char) : List Char → Option (List Char × Nat)
  | [] => none
  | c :: cs =>
    match matchUidTokenAt (c :: cs) with
    | some ds => some (acc.reverse, digitsToNat ds)
    | none => pkgSplit (c :: acc) cs

/-- Leftmost package entry on a line. -/
def findPkg : List Char → Option (List Char × Nat)
  | [] => none
  | c :: cs =>
    if "package:".toList.isPrefixOf (c :: cs) then
      match pkgSplit [] ((c :: cs).drop 8) with
      | some r => some r
      | none => findPkg cs
    else findPkg cs

/-- Dictionary insertion with overwrite (key uniqueness of a Python
dict; ordering of entries is never observed by the core). -/
def dictInsert (m : List (String × String)) (k v : String) : List (String × String) :=
  (m.filter (fun p => p.1 ≠ k)) ++ [(k, v)]

/-- Dictionary lookup. -/
def lookupMap (m : List (String × String)) (k : String) : Option String :=
  (m.find? (fun p => p.1 = k)).map (fun p => p.2)

/-- Embedding of the package-map builder: entries with uid at least
10000 are app-scoped and keyed by the synthetic u0a identifier. -/
def getPackageMap : Option (List Char) → List (String × String)
  | none => []
  | some cs =>
    (splitLinesPy cs).foldl (fun m line =>
      match findPkg line with
      | some r =>
        if 10000 ≤ r.2 then dictInsert m ("u0a" ++ toString (r.2 - 10000)) r.1.asString
        else m
      | none => m) []

/-! ## The interval correlator

The orchestrator concatenates the per-snapshot event frames (each
carrying its own zero-based row labels), sorts all events by
timestamp, splits them into start and end edges, and greedily pairs
each start edge with the first matching end edge in the sorted order
whose label is not yet claimed. -/

/-- A matched pair emitted by the correlator: the start edge, the
label and edge of the claimed end, and the computed duration in
seconds. -/
structure Matched where
  s : Edge
  lbl : Nat
  e : Edge
  dur : ℚ
deriving DecidableEq

/-- Candidate test for an end row against a start edge: same owner id
and tag, strictly later timestamp, label not yet claimed. -/
def endCandB (s : Edge) (used : List Nat) (x : Nat × Edge) : Bool :=
  x.2.uid = s.uid && x.2.tag = s.tag && s.ts < x.2.ts && !(used.contains x.1)

/-- First candidate end row in the (timestamp-sorted) end frame. -/
def findEnd (s : Edge) (used : List Nat) : List (Nat × Edge) → Option (Nat × Edge)
  | [] => none
  | e :: rest => if endCandB s used e then some e else findEnd s used rest

/-- The matching loop over start edges, carrying the set of claimed
end labels.  The non-negative duration guard of the source sits
between finding a candidate and emitting the pair. -/
def corrGo (ends : List (Nat × Edge)) (used : List Nat) : List Edge → List Matched
  | [] => []
  | st :: more =>
    match findEnd st used ends with
    | none => corrGo ends used more
    | some le =>
      if 0 ≤ mkRat (le.2.ts - st.ts) 1000 then
        ⟨st, le.1, le.2, mkRat (le.2.ts - st.ts) 1000⟩ :: corrGo ends (le.1 :: used) more
      else corrGo ends used more

/-- The matching loop without the defensive duration guard, used to
show the guard never fires. -/
def corrGoNG (ends : List (Nat × Edge)) (used : List Nat) : List Edge → List Matched
  | [] => []
  | st :: more =>
    match findEnd st used ends with
    | none => corrGoNG ends used more
    | some le =>
      ⟨st, le.1, le.2, mkRat (le.2.ts - st.ts) 1000⟩ ::
        corrGoNG ends (le.1 :: used) more

/-- Timestamp order on labelled events. -/
def tsLe (a b : Nat × Edge) : Prop := a.2.ts ≤ b.2.ts

instance : DecidableRel tsLe := fun a b => inferInstanceAs (Decidable (a.2.ts ≤ b.2.ts))

instance : IsTotal (Nat × Edge) tsLe := ⟨fun a b => Int.le_total a.2.ts b.2.ts⟩

instance : IsTrans (Nat × Edge) tsLe := ⟨fun _ _ _ => Int.le_trans⟩

/-- Stable sort of the labelled events by timestamp. -/
def sortEvents (l : List (Nat × Edge)) : List (Nat × Edge) :=
  List.insertionSort tsLe l

/-- The correlator on one labelled event frame: sort by timestamp,
split into starts and ends, run the matching loop. -/
def correlate (evs : List (Nat × Edge)) : List Matched :=
  corrGo ((sortEvents evs).filter (fun p => !p.2.isStart)) []
    (((sortEvents evs).filter (fun p => p.2.isStart)).map Prod.snd)

/-- Concatenation of per-snapshot event frames, each frame keeping its
own zero-based row labels, as the frame concatenation of the source
preserves each frame's index. -/
def concatEnum (dfs : List (List Edge)) : List (Nat × Edge) :=
  dfs.flatMap List.enum

/-- The correlation the orchestrator performs over a whole series of
per-snapshot event frames. -/
def correlateAll (dfs : List (List Edge)) : List Matched :=
  correlate (concatEnum dfs)

/-! ## Grouping and sorting -/

/-- Ascending sort of keys (the ordering a frame groupby applies to
the group keys). -/
def sortKeys {K : Type} [LinearOrder K] (l : List K) : List K :=
  List.insertionSort (· ≤ ·) l

/-- Sum of the values of all rows with the given key. -/
def keySum {K : Type} [DecidableEq K] (l : List (K × ℚ)) (k : K) : ℚ :=
  ((l.filter (fun p => p.1 = k)).map Prod.snd).sum

/-- Group-by-key-and-sum: one row per distinct key, keys in ascending
order, each value the sum of the matching input values. -/
def groupbySum {K : Type} [LinearOrder K] [DecidableEq K] (l : List (K × ℚ)) :
    List (K × ℚ) :=
  (sortKeys (l.map Prod.fst).dedup).map (fun k => (k, keySum l k))

/-- Descending order by a rational measure. -/
def qGe {α : Type} (f : α → ℚ) (a b : α) : Prop := f b ≤ f a

instance {α : Type} (f : α → ℚ) : DecidableRel (qGe f) :=
  fun a b => inferInstanceAs (Decidable (f b ≤ f a))

instance {α : Type} (f : α → ℚ) : IsTotal α (qGe f) := ⟨fun a b => le_total (f b) (f a)⟩

instance {α : Type} (f : α → ℚ) : IsTrans α (qGe f) :=
  ⟨fun _ _ _ h1 h2 => le_trans h2 h1⟩

/-- Sort descending by a rational measure. -/
def sortDescBy {α : Type} (f : α → ℚ) (l : List α) : List α :=
  List.insertionSort (qGe f) l

/-! ## The snapshot orchestrator -/

/-- One snapshot as the orchestrator sees it: its capture time and the
text of its three files, each possibly missing or unreadable. -/
structure Snap where
  time : Int
  battery : Option (List Char)
  stats : Option (List Char)
  packages : Option (List Char)

/-- A completed wakelock period row. -/
structure Period where
  uid : String
  tag : String
  durS : ℚ
deriving DecidableEq

/-- A row of the final wakelock table: the grouped key, the summed
duration, and the annotation column added by the orchestrator. -/
structure WRow where
  uid : String
  tag : String
  durS : ℚ
  appName : String
deriving DecidableEq

/-- The three tables the orchestrator returns. -/
structure Outputs where
  batt : List (Int × Nat)
  power : List (String × ℚ)
  wl : List WRow
deriving DecidableEq

/-- Python digit test on a whole string: non-empty and all digits. -/
def pyIsDigitStr (s : String) : Bool :=
  !s.toList.isEmpty && s.toList.all Char.isDigit

/-- The owner-id recognition and mapping of the source: a key with the
u0a prefix or a purely numeric key is looked up in the map with the
sentinel as fallback; any other key passes through. -/
def mapUidToName (appMap : List (String × String)) (name : String) : String :=
  if "u0a".toList.isPrefixOf name.toList || pyIsDigitStr name then
    (lookupMap appMap name).getD "System/Other"
  else name

/-- The identity-remap step the orchestrator applies to the power
total: only when both the total and the map are non-empty, map every
key and re-group by the mapped name. -/
def remapPower (appMap : List (String × String)) (total : List (String × ℚ)) :
    List (String × ℚ) :=
  if total.isEmpty || appMap.isEmpty then total
  else groupbySum (total.map (fun p => (mapUidToName appMap p.1, p.2)))

/-- The raw power total: group the collected samples by name, sum,
and sort descending by total. -/
def powerTableOf (powerData : List Consumer) : List (String × ℚ) :=
  if powerData.isEmpty then []
  else sortDescBy Prod.snd (groupbySum (powerData.map (fun c => (c.name, c.powerMah))))

/-- Battery readings across the series, one row per snapshot with a
parsable level. -/
def battRowsOf (snaps : List Snap) : List (Int × Nat) :=
  snaps.filterMap (fun d => (parseBatteryLevel d.battery).map (fun l => (d.time, l)))

/-- Power samples collected over the series; a raising parse aborts
the whole collection. -/
def collectPower : List Snap → Option (List Consumer)
  | [] => some []
  | d :: rest =>
    match parsePowerConsumers d.stats with
    | none => none
    | some cs => (collectPower rest).map (fun tl => cs ++ tl)

/-- The most recent snapshot (the series is non-empty whenever this is
used). -/
def lastOf (snaps : List Snap) : Snap :=
  (snaps.getLast?).getD ⟨0, none, none, none⟩

/-- Periods from matched pairs: owner id, tag and duration. -/
def periodsOf (ms : List Matched) : List Period :=
  ms.map (fun m => ⟨m.s.uid, m.s.tag, m.dur⟩)

/-- Period rows keyed for the two-column groupby (lexicographic pair
key, as the groupby sorts on both columns). -/
def wakelockPairs (periods : List Period) : List (Lex (String × String) × ℚ) :=
  periods.map (fun p => (toLex (p.uid, p.tag), p.durS))

/-- The final wakelock table: group periods by owner id and tag, sum
durations, sort descending by the sum, then annotate each row with the
mapped application name (plain dictionary lookup with the sentinel as
fallback; with an empty map every row gets the sentinel). -/
def wakelockTable (appMap : List (String × String)) (periods : List Period) :
    List WRow :=
  (sortDescBy Prod.snd (groupbySum (wakelockPairs periods))).map (fun r =>
    { uid := (ofLex r.1).1, tag := (ofLex r.1).2, durS := r.2,
      appName :=
        if appMap.isEmpty then "System/Other"
        else (lookupMap appMap (ofLex r.1).1).getD "System/Other" })

/-- Embedding of the orchestrator.  An empty series returns three
empty tables.  A non-empty series with no parsable battery level
raises (the frame has no timestamp column to index on), as does a
raising power parse; otherwise the battery, power (remapped) and
wakelock tables are assembled, with early returns when there are no
events or no completed periods. -/
def processAllLogs (snaps : List Snap) : Option Outputs :=
  if snaps.isEmpty then some ⟨[], [], []⟩
  else
    let appMap := getPackageMap (lastOf snaps).packages
    let battRows := battRowsOf snaps
    if battRows.isEmpty then none
    else
      match collectPower snaps with
      | none => none
      | some powerData =>
        let total2 := remapPower appMap (powerTableOf powerData)
        let allEv := concatEnum (snaps.map (fun d => parseBatteryHistory d.stats))
        if allEv.isEmpty then some ⟨battRows, total2, []⟩
        else
          let periods := periodsOf (correlate allEv)
          if periods.isEmpty then some ⟨battRows, total2, []⟩
          else some ⟨battRows, total2, wakelockTable appMap periods⟩

/-! ## The combined drain-score table of the report generator -/

/-- Word characters of the package-name pattern. -/
def isWordChar (c : Char) : Bool :=
  c.isAlphanum || c = '_'

/-- Leftmost match of the dotted package-name pattern in a tag: a
non-empty word run, a dot, then a non-empty greedy run of word or dot
characters. -/
def findPkgName : List Char → Option (List Char)
  | [] => none
  | c :: cs =>
    if isWordChar c then
      match cs.dropWhile isWordChar with
      | '.' :: rest2 =>
        let run2 := rest2.takeWhile (fun x => isWordChar x || x = '.')
        if run2.isEmpty then findPkgName cs
        else some ((c :: cs.takeWhile isWordChar) ++ '.' :: run2)
      | _ => findPkgName cs
    else findPkgName cs

/-- Component name derived from a wakelock tag, with the sentinel as
fallback. -/
def nameFromTag (tag : String) : String :=
  match findPkgName tag.toList with
  | some r => r.asString
  | none => "System/Other"

/-- A row of the combined drain-score table. -/
structure CRow where
  name : String
  powerMah : ℚ
  durS : ℚ
  score : ℚ
deriving DecidableEq

/-- Wakelock durations re-grouped under tag-derived component names. -/
def appWakelocks (wl : List WRow) : List (String × ℚ) :=
  groupbySum (wl.map (fun r => (nameFromTag r.tag, r.durS)))

/-- One row of the outer merge: the power and duration values of the
name (zero when the side is missing) and the weighted drain score. -/
def combinedRow (power appWl : List (String × ℚ)) (n : String) : CRow :=
  let p := ((power.find? (fun q => q.1 = n)).map Prod.snd).getD 0
  let d := ((appWl.find? (fun q => q.1 = n)).map Prod.snd).getD 0
  ⟨n, p, d, p * mkRat 7 10 + d * mkRat 3 10⟩

/-- Embedding of the combined-table construction of the report
generator: with an empty wakelock table, or an empty power table, the
combined table is empty; otherwise wakelock durations are re-grouped
under tag-derived names, outer-merged with the power table (union of
names, missing side zero), scored, and sorted descending by score. -/
def combinedDf (power : List (String × ℚ)) (wl : List WRow) : List CRow :=
  if wl.isEmpty then []
  else if power.isEmpty then []
  else
    sortDescBy CRow.score
      ((sortKeys ((power.map Prod.fst) ++ ((appWakelocks wl).map Prod.fst)).dedup).map
        (combinedRow power (appWakelocks wl)))

/-! ## Lemmas about the correlator -/

theorem findEnd_mem_cand {s : Edge} {used : List Nat} {ends : List (Nat × Edge)}
    {le : Nat × Edge} (h : findEnd s used ends = some le) :
    le ∈ ends ∧ endCandB s used le = true := by
  induction ends with
  | nil => simp [findEnd] at h
  | cons e rest ih =>
    rw [findEnd] at h
    split at h
    next hc => injection h with h'; subst h'; exact ⟨List.mem_cons_self _ _, hc⟩
    next => rcases ih h with ⟨hm, hc⟩; exact ⟨List.mem_cons_of_mem _ hm, hc⟩

theorem findEnd_min {s : Edge} {used : List Nat} {ends : List (Nat × Edge)}
    {le : Nat × Edge} (hs : List.Sorted tsLe ends) (h : findEnd s used ends = some le) :
    ∀ x ∈ ends, endCandB s used x = true → le.2.ts ≤ x.2.ts := by
  induction ends with
  | nil => simp [findEnd] at h
  | cons e rest ih =>
    rw [findEnd] at h
    rw [List.sorted_cons] at hs
    split at h
    next hc =>
      injection h with h'
      subst h'
      intro x hx _
      rcases List.mem_cons.mp hx with rfl | hx
      · exact le_refl _
      · exact hs.1 x hx
    next hc =>
      intro x hx hcx
      rcases List.mem_cons.mp hx with rfl | hx
      · rw [hcx] at hc; exact absurd rfl hc
      · exact ih hs.2 h x hx hcx

theorem findEnd_none {s : Edge} {used : List Nat} {ends : List (Nat × Edge)}
    (h : ∀ x ∈ ends, endCandB s used x = false) : findEnd s used ends = none := by
  induction ends with
  | nil => rfl
  | cons e rest ih =>
    rw [findEnd, h e (List.mem_cons_self _ _)]
    simp only [Bool.false_eq_true, if_false]
    exact ih (fun x hx => h x (List.mem_cons_of_mem _ hx))

/-- Unpacked form of a successful candidate test. -/
theorem endCandB_iff {s : Edge} {used : List Nat} {x : Nat × Edge} :
    endCandB s used x = true ↔
      x.2.uid = s.uid ∧ x.2.tag = s.tag ∧ s.ts < x.2.ts ∧ x.1 ∉ used := by
  simp [endCandB, and_assoc]

theorem corrGo_mem {ends : List (Nat × Edge)} {starts : List Edge} {used : List Nat}
    {m : Matched} (h : m ∈ corrGo ends used starts) :
    m.s.ts < m.e.ts ∧ m.dur = mkRat (m.e.ts - m.s.ts) 1000 := by
  induction starts generalizing used with
  | nil => simp [corrGo] at h
  | cons st more ih =>
    rw [corrGo] at h
    split at h
    · exact ih h
    next le hle =>
      split at h
      · rcases List.mem_cons.mp h with rfl | h
        · exact ⟨(endCandB_iff.mp (findEnd_mem_cand hle).2).2.2.1, rfl⟩
        · exact ih h
      · exact ih h

theorem corrGo_eq_NG (ends : List (Nat × Edge)) (starts : List Edge) (used : List Nat) :
    corrGo ends used starts = corrGoNG ends used starts := by
  induction starts generalizing used with
  | nil => rfl
  | cons st more ih =>
    rw [corrGo, corrGoNG]
    split
    · exact ih used
    next le hle =>
      rw [if_pos, ih]
      have hlt := (endCandB_iff.mp (findEnd_mem_cand hle).2).2.2.1
      exact Rat.mkRat_nonneg (by omega) _

theorem corrGo_lbl_nodup (ends : List (Nat × Edge)) (starts : List Edge)
    (used : List Nat) :
    ((corrGo ends used starts).map Matched.lbl).Nodup ∧
      ∀ m ∈ corrGo ends used starts, m.lbl ∉ used := by
  induction starts generalizing used with
  | nil => exact ⟨List.nodup_nil, by simp [corrGo]⟩
  | cons st more ih =>
    rw [corrGo]
    split
    · exact ih used
    next le hle =>
      split
      · have hnotin := (endCandB_iff.mp (findEnd_mem_cand hle).2).2.2.2
        rcases ih (le.1 :: used) with ⟨hnd, hnin⟩
        constructor
        · rw [List.map_cons, List.nodup_cons]
          refine ⟨?_, hnd⟩
          intro hmem
          rcases List.mem_map.mp hmem with ⟨m, hm, hlbl⟩
          exact (hnin m hm) (hlbl ▸ List.mem_cons_self _ _)
        · intro m hm
          rcases List.mem_cons.mp hm with rfl | hm
          · exact hnotin
          · exact fun hmu => (hnin m hm) (List.mem_cons_of_mem _ hmu)
      · exact ih used

/-! ## Lemmas about grouping and sorting -/

theorem mem_groupbySum {K : Type} [LinearOrder K] [DecidableEq K] {l : List (K × ℚ)}
    {k : K} {v : ℚ} :
    (k, v) ∈ groupbySum l ↔ k ∈ l.map Prod.fst ∧ v = keySum l k := by
  unfold groupbySum sortKeys
  rw [List.mem_map]
  constructor
  · rintro ⟨k', hk', heq⟩
    rw [Prod.mk.injEq] at heq
    rcases heq with ⟨rfl, rfl⟩
    rw [List.mem_insertionSort, List.mem_dedup] at hk'
    exact ⟨hk', rfl⟩
  · rintro ⟨hk, rfl⟩
    exact ⟨k, by rw [List.mem_insertionSort, List.mem_dedup]; exact hk, rfl⟩

theorem groupbySum_keys {K : Type} [LinearOrder K] [DecidableEq K] (l : List (K × ℚ)) :
    (groupbySum l).map Prod.fst = sortKeys (l.map Prod.fst).dedup := by
  unfold groupbySum
  rw [List.map_map]
  exact List.map_id _

theorem groupbySum_keys_nodup {K : Type} [LinearOrder K] [DecidableEq K]
    (l : List (K × ℚ)) : ((groupbySum l).map Prod.fst).Nodup := by
  rw [groupbySum_keys]
  exact ((List.perm_insertionSort _ _).nodup_iff).mpr (List.nodup_dedup _)

theorem groupbySum_sorted {K : Type} [LinearOrder K] [DecidableEq K] (l : List (K × ℚ)) :
    List.Sorted (fun a b : K × ℚ => a.1 ≤ b.1) (groupbySum l) := by
  unfold groupbySum sortKeys
  have hs : List.Sorted (· ≤ ·) (List.insertionSort (· ≤ ·) (l.map Prod.fst).dedup) :=
    List.sorted_insertionSort _ _
  exact List.Pairwise.map _ (fun a b h => h) hs

theorem groupbySum_length {K : Type} [LinearOrder K] [DecidableEq K] (l : List (K × ℚ)) :
    (groupbySum l).length = (l.map Prod.fst).dedup.length := by
  unfold groupbySum sortKeys
  rw [List.length_map, (List.perm_insertionSort _ _).length_eq]

theorem sortDescBy_sorted {α : Type} (f : α → ℚ) (l : List α) :
    List.Sorted (qGe f) (sortDescBy f l) :=
  List.sorted_insertionSort _ l

theorem sortDescBy_perm {α : Type} (f : α → ℚ) (l : List α) :
    (sortDescBy f l).Perm l :=
  List.perm_insertionSort _ l

/-! ## Lemmas about the pipeline tables -/

theorem wakelockTable_sorted (appMap : List (String × String)) (periods : List Period) :
    List.Sorted (qGe WRow.durS) (wakelockTable appMap periods) := by
  unfold wakelockTable
  exact List.Pairwise.map _ (fun a b h => h) (sortDescBy_sorted Prod.snd _)

theorem wakelockTable_core_indep (m1 m2 : List (String × String)) (ps : List Period) :
    (wakelockTable m1 ps).map (fun r => (r.uid, r.tag, r.durS)) =
      (wakelockTable m2 ps).map (fun r => (r.uid, r.tag, r.durS)) := by
  unfold wakelockTable
  rw [List.map_map, List.map_map]
  exact List.map_congr_left (fun r _ => rfl)

theorem wakelockTable_length (appMap : List (String × String)) (ps : List Period) :
    (wakelockTable appMap ps).length =
      ((ps.map (fun p => toLex (p.uid, p.tag))).dedup).length := by
  unfold wakelockTable
  rw [List.length_map, (sortDescBy_perm _ _).length_eq, groupbySum_length]
  unfold wakelockPairs
  rw [List.map_map]
  rfl

theorem wakelockTable_appName (m : List (String × String)) (ps : List Period)
    (h : m.isEmpty = false) :
    ∀ r ∈ wakelockTable m ps, r.appName = (lookupMap m r.uid).getD "System/Other" := by
  unfold wakelockTable
  intro r hr
  rcases List.mem_map.mp hr with ⟨x, _, rfl⟩
  simp only [h, Bool.false_eq_true, if_false]

theorem power_sorted (appMap : List (String × String)) (powerData : List Consumer) :
    List.Sorted (fun a b : String × ℚ => a.1 ≤ b.1)
        (remapPower appMap (powerTableOf powerData)) ∨
      List.Sorted (qGe Prod.snd) (remapPower appMap (powerTableOf powerData)) := by
  unfold remapPower
  split
  · unfold powerTableOf
    split
    · exact Or.inr List.sorted_nil
    · exact Or.inr (sortDescBy_sorted _ _)
  · exact Or.inl (groupbySum_sorted _)

/-! ## Congruence lemmas for replacing one snapshot's event text -/

theorem filterMap_middle {α β : Type} (f : α → Option β) (xs ys : List α) {a b : α}
    (h : f a = f b) : (xs ++ a :: ys).filterMap f = (xs ++ b :: ys).filterMap f := by
  rw [List.filterMap_append, List.filterMap_append, List.filterMap_cons,
    List.filterMap_cons, h]

theorem map_middle {α β : Type} (f : α → β) (xs ys : List α) {a b : α}
    (h : f a = f b) : (xs ++ a :: ys).map f = (xs ++ b :: ys).map f := by
  rw [List.map_append, List.map_append, List.map_cons, List.map_cons, h]

theorem collectPower_middle (xs ys : List Snap) {a b : Snap}
    (h : parsePowerConsumers a.stats = parsePowerConsumers b.stats) :
    collectPower (xs ++ a :: ys) = collectPower (xs ++ b :: ys) := by
  induction xs with
  | nil => simp only [List.nil_append, collectPower]; rw [h]
  | cons x xs ih => simp only [List.cons_append, collectPower, List.append_eq, ih]

theorem lastOf_middle (xs ys : List Snap) (a b : Snap)
    (hpkg : a.packages = b.packages) :
    (lastOf (xs ++ a :: ys)).packages = (lastOf (xs ++ b :: ys)).packages := by
  unfold lastOf
  rw [List.getLast?_append_cons, List.getLast?_append_cons]
  cases ys with
  | nil => simpa using hpkg
  | cons y ys => rw [List.getLast?_cons_cons, List.getLast?_cons_cons]

theorem processAllLogs_stats_middle (xs ys : List Snap) (a b : Snap)
    (ht : a.time = b.time) (hb : a.battery = b.battery) (hp : a.packages = b.packages)
    (hs1 : parsePowerConsumers a.stats = parsePowerConsumers b.stats)
    (hs2 : parseBatteryHistory a.stats = parseBatteryHistory b.stats) :
    processAllLogs (xs ++ a :: ys) = processAllLogs (xs ++ b :: ys) := by
  unfold processAllLogs
  have he : (xs ++ a :: ys).isEmpty = (xs ++ b :: ys).isEmpty := by
    cases xs <;> rfl
  have h1 : battRowsOf (xs ++ a :: ys) = battRowsOf (xs ++ b :: ys) := by
    unfold battRowsOf
    exact filterMap_middle _ xs ys (by rw [hb, ht])
  have h2 := collectPower_middle xs ys hs1
  have h3 := lastOf_middle xs ys a b hp
  have h4 : (xs ++ a :: ys).map (fun d => parseBatteryHistory d.stats) =
      (xs ++ b :: ys).map (fun d => parseBatteryHistory d.stats) :=
    map_middle _ xs ys hs2
  simp only [he, h1, h2, h3, h4]

/-! ## Empty-extraction lemmas -/

theorem parseBatteryHistory_none : parseBatteryHistory none = [] := rfl

theorem parseBatteryHistory_no_marker {cs : List Char} (h : findResetTime cs = none) :
    parseBatteryHistory (some cs) = [] := by
  simp only [parseBatteryHistory, h]

theorem parsePowerConsumers_none : parsePowerConsumers none = some [] := rfl

theorem consumersGo_no_marker {lines : List (List Char)}
    (h : ∀ l ∈ lines, listHasSub "Estimated power use (mAh)".toList l = false) :
    consumersGo lines false = some [] := by
  induction lines with
  | nil => rfl
  | cons l rest ih =>
    rw [consumersGo, h l (List.mem_cons_self _ _)]
    simp only [Bool.false_eq_true, if_false]
    exact ih (fun x hx => h x (List.mem_cons_of_mem _ hx))

theorem parsePowerConsumers_no_marker {cs : List Char}
    (h : ∀ l ∈ splitLinesPy cs,
      listHasSub "Estimated power use (mAh)".toList l = false) :
    parsePowerConsumers (some cs) = some [] :=
  consumersGo_no_marker h

/-- The head of a matched substring pattern occurs in the text. -/
theorem hasSub_head_mem {x : Char} {xs s : List Char}
    (h : listHasSub (x :: xs) s = true) : x ∈ s := by
  unfold listHasSub at h
  rw [List.any_eq_true] at h
  rcases h with ⟨t, ht, hpre⟩
  rw [List.mem_tails] at ht
  cases t with
  | nil => simp [List.isPrefixOf] at hpre
  | cons a as =>
    have hxa : x = a := by
      simp only [List.isPrefixOf, Bool.and_eq_true, beq_iff_eq] at hpre
      exact hpre.1
    subst hxa
    exact ht.sublist.subset (List.mem_cons_self _ _)

/-- Characters surviving the strip come from the original token. -/
theorem mem_of_mem_pyStrip {c : Char} {t : List Char} (hc : c ∈ pyStrip t) : c ∈ t := by
  unfold pyStrip at hc
  rw [List.mem_reverse] at hc
  have h1 := (List.dropWhile_sublist pyIsSpace).mem hc
  rw [List.mem_reverse] at h1
  exact (List.dropWhile_sublist pyIsSpace).mem h1

/-! ## Claim theorems -/

/-- Dropping while a predicate holds changes nothing when no element
satisfies it. -/
theorem dropWhile_eq_self_of {p : Char → Bool} {l : List Char}
    (h : ∀ c ∈ l, p c = false) : l.dropWhile p = l := by
  cases l with
  | nil => rfl
  | cons c cs =>
    rw [List.dropWhile_cons, h c (List.mem_cons_self _ _)]
    simp

/-- Stripping a token with no blank characters changes nothing. -/
theorem pyStrip_eq_self {l : List Char} (h : ∀ c ∈ l, pyIsSpace c = false) :
    pyStrip l = l := by
  unfold pyStrip
  rw [dropWhile_eq_self_of h,
    dropWhile_eq_self_of (fun c hc => h c (List.mem_reverse.mp hc)),
    List.reverse_reverse]

/-- Splitting an all-digit run followed by a remainder that does not
begin with a digit. -/
theorem takeDrop_digit_run {xs r : List Char} (hxs : ∀ c ∈ xs, c.isDigit = true)
    (hr : ∀ c, r.head? = some c → c.isDigit = false) :
    (xs ++ r).takeWhile Char.isDigit = xs ∧ (xs ++ r).dropWhile Char.isDigit = r := by
  induction xs with
  | nil =>
    simp only [List.nil_append]
    cases hrr : r with
    | nil => exact ⟨rfl, rfl⟩
    | cons x rs =>
      have hx : x.isDigit = false := hr x (by rw [hrr]; rfl)
      rw [List.takeWhile_cons, List.dropWhile_cons, hx]
      simp
  | cons x xs ih =>
    rw [List.cons_append, List.takeWhile_cons, List.dropWhile_cons,
      hxs x (List.mem_cons_self _ _)]
    have h2 := ih (fun c hc => hxs c (List.mem_cons_of_mem _ hc))
    simp only [if_true]
    exact ⟨by rw [h2.1], h2.2⟩

/-- Unfolding equation of the unit search at a cons cell. -/
theorem findNumBefore_cons (u : List Char) (c : Char) (cs : List Char) :
    findNumBefore u (c :: cs) =
      if c.isDigit && u.isPrefixOf (cs.dropWhile Char.isDigit) then
        some (digitsToNat (c :: cs.takeWhile Char.isDigit))
      else findNumBefore u cs := rfl

/-- The unit search on a token that is a digit run immediately
followed by the unit letters returns the value of the whole run. -/
theorem findNumBefore_run {u ds r : List Char} (hne : ds ≠ [])
    (hds : ∀ c ∈ ds, c.isDigit = true)
    (hr : ∀ c, r.head? = some c → c.isDigit = false)
    (hu : u.isPrefixOf r = true) :
    findNumBefore u (ds ++ r) = some (digitsToNat ds) := by
  cases ds with
  | nil => exact absurd rfl hne
  | cons d ds2 =>
    have hsplit := @takeDrop_digit_run ds2 r
      (fun c hc => hds c (List.mem_cons_of_mem _ hc)) hr
    rw [List.cons_append, findNumBefore, hsplit.1, hsplit.2,
      hds d (List.mem_cons_self _ _), hu]
    simp

/-- The unit search skips a digit run that the unit letters do not
follow. -/
theorem findNumBefore_skip_run {u ds r : List Char}
    (hds : ∀ c ∈ ds, c.isDigit = true)
    (hr : ∀ c, r.head? = some c → c.isDigit = false)
    (hu : u.isPrefixOf r = false) :
    findNumBefore u (ds ++ r) = findNumBefore u r := by
  induction ds with
  | nil => rfl
  | cons d ds2 ih =>
    have hsplit := @takeDrop_digit_run ds2 r
      (fun c hc => hds c (List.mem_cons_of_mem _ hc)) hr
    rw [List.cons_append, findNumBefore, hsplit.2, hu]
    simp only [Bool.and_false, Bool.false_eq_true, if_false]
    exact ih (fun c hc => hds c (List.mem_cons_of_mem _ hc))

/-- When every occurrence of the letter m in a token is immediately
followed by the letter s, the minutes search coincides with the
milliseconds search: the minutes regex can only match the digit run
before the m of an ms unit. -/
theorem findNumBefore_m_eq_ms {cs : List Char}
    (h : ∀ l : List Char, ('m' :: l) <:+ cs → l.head? = some 's') :
    findNumBefore ['m'] cs = findNumBefore ['m', 's'] cs := by
  induction cs with
  | nil => rfl
  | cons c cs2 ih =>
    have hsuf : ∀ l : List Char, ('m' :: l) <:+ cs2 → l.head? = some 's' :=
      fun l hl => h l (hl.trans (List.suffix_cons c cs2))
    have hcond : (['m'] : List Char).isPrefixOf (cs2.dropWhile Char.isDigit) =
        (['m', 's'] : List Char).isPrefixOf (cs2.dropWhile Char.isDigit) := by
      cases hdw : cs2.dropWhile Char.isDigit with
      | nil => rfl
      | cons x xs =>
        by_cases hx : x = 'm'
        · subst hx
          have hsx : xs.head? = some 's' := by
            apply hsuf
            rw [← hdw]
            exact List.dropWhile_suffix _
          cases xs with
          | nil => simp at hsx
          | cons y ys =>
            have hy : y = 's' := by simpa using hsx
            subst hy
            simp [List.isPrefixOf]
        · have hbx : ('m' == x) = false := by
            rw [beq_eq_false_iff_ne]
            exact fun he => hx he.symm
          simp [List.isPrefixOf, hbx]
    rw [findNumBefore, findNumBefore, hcond]
    split
    · rfl
    · exact ih hsuf

/-- A digit character is not a blank. -/
theorem digit_not_space {c : Char} (h : c.isDigit = true) : pyIsSpace c = false := by
  by_contra hcon
  rw [Bool.not_eq_false] at hcon
  unfold pyIsSpace at hcon
  simp only [Bool.or_eq_true, decide_eq_true_eq] at hcon
  rcases hcon with ((((rfl | rfl) | rfl) | rfl) | rfl) | rfl <;>
    exact absurd h (by decide)

/-- C10: in every offset token each occurrence of the letter m that is
immediately followed by the letter s makes the minutes search return
exactly what the milliseconds search returns, so when the only m is
the one of the ms unit the minutes component is set from the digits
preceding that m; in particular, for every non-empty digit run N, the
token plus-N-ms parses to N minutes plus N milliseconds, and the token
plus-five-ms yields a five-minute-and-five-millisecond offset rather
than five milliseconds alone. -/
theorem c10_ms_token_sets_minutes :
    (∀ cs : List Char, (∀ l : List Char, ('m' :: l) <:+ cs → l.head? = some 's') →
      findNumBefore ['m'] cs = findNumBefore ['m', 's'] cs) ∧
    (∀ ds : List Char, ds ≠ [] → (∀ c ∈ ds, c.isDigit = true) →
      parseTime ('+' :: ds ++ ['m', 's']) =
        (digitsToNat ds * 60000 + digitsToNat ds : ℤ)) ∧
    parseTime "+5ms".toList = 5 * 60000 + 5 := by
  refine ⟨fun cs h => findNumBefore_m_eq_ms h, ?_, by decide⟩
  intro ds hne hds
  have hmem : ∀ c ∈ ('+' :: ds ++ ['m', 's']), pyIsSpace c = false := by
    intro c hc
    rcases List.mem_cons.mp hc with rfl | hc
    · decide
    rcases List.mem_append.mp hc with hc | hc
    · exact digit_not_space (hds c hc)
    · rcases List.mem_cons.mp hc with rfl | hc
      · decide
      rcases List.mem_cons.mp hc with rfl | hc
      · decide
      · exact absurd hc (List.not_mem_nil c)
  have hstrip : pyStrip ('+' :: ds ++ ['m', 's']) = '+' :: ds ++ ['m', 's'] :=
    pyStrip_eq_self hmem
  have hh : ('+' :: ds ++ ['m', 's']).contains 'h' = false := by
    have hnm : 'h' ∉ ('+' :: ds ++ ['m', 's']) := by
      intro hmem2
      rcases List.mem_cons.mp hmem2 with h1 | h1
      · exact absurd h1 (by decide)
      rcases List.mem_append.mp h1 with h2 | h2
      · exact absurd (hds _ h2) (by decide)
      · exact absurd h2 (by decide)
    simpa using hnm
  have hcm : ('+' :: ds ++ ['m', 's']).contains 'm' = true := by simp
  have hcs : ('+' :: ds ++ ['m', 's']).contains 's' = true := by simp
  have hsub : listHasSub ['m', 's'] ('+' :: ds ++ ['m', 's']) = true := by
    unfold listHasSub
    rw [List.any_eq_true]
    refine ⟨['m', 's'], ?_, by decide⟩
    rw [List.mem_tails]
    exact ⟨'+' :: ds, by simp⟩
  have hr : ∀ c : Char, (['m', 's'] : List Char).head? = some c → c.isDigit = false := by
    intro c hc
    have hcm2 : c = 'm' := by simpa using hc.symm
    subst hcm2
    decide
  have hplus : ('+'.isDigit) = false := by decide
  have hfm : findNumBefore ['m'] ('+' :: ds ++ ['m', 's']) = some (digitsToNat ds) := by
    rw [List.cons_append, findNumBefore_cons, hplus]
    simp only [Bool.false_and, Bool.false_eq_true, if_false]
    exact findNumBefore_run hne hds hr (by decide)
  have hfms : findNumBefore ['m', 's'] ('+' :: ds ++ ['m', 's']) = some (digitsToNat ds) := by
    rw [List.cons_append, findNumBefore_cons, hplus]
    simp only [Bool.false_and, Bool.false_eq_true, if_false]
    exact findNumBefore_run hne hds hr (by decide)
  have hfs : findNumBefore ['s'] ('+' :: ds ++ ['m', 's']) = none := by
    rw [List.cons_append, findNumBefore_cons, hplus]
    simp only [Bool.false_and, Bool.false_eq_true, if_false]
    rw [findNumBefore_skip_run hds hr (by decide)]
    rfl
  simp only [parseTime, hstrip, hh, hcm, hcs, hsub, hfm, hfms, hfs,
    Bool.false_eq_true, if_false, if_true, Option.getD_some, Option.getD_none]
  omega

/-- Witness for C10 at the concrete digit run five. -/
theorem c10_ms_token_sets_minutes_witness :
    parseTime ('+' :: ['5'] ++ ['m', 's']) =
      (digitsToNat ['5'] * 60000 + digitsToNat ['5'] : ℤ) :=
  c10_ms_token_sets_minutes.2.1 ['5'] (by decide) (by decide)

/-- C8: the offset parser treats the four units as optional and
independent; the token 1h30s parses to one hour and thirty seconds
with minutes and milliseconds zero, a reordered token parses the same,
a token with none of the unit letters parses to the zero offset, and
an event's absolute timestamp is the reset epoch plus the parsed
offset. -/
theorem c8_offset_parsing :
    parseTime "1h30s".toList = 3630000 ∧
    parseTime "30s1h".toList = 3630000 ∧
    parseTime "+2m".toList = 120000 ∧
    (∀ t : List Char, t.contains 'h' = false → t.contains 'm' = false →
      t.contains 's' = false → parseTime t = 0) ∧
    parseBatteryHistory
        (some "RESET:TIME: 2024-01-01-00-00-00\n+1h30s (1) 123 +longwake=u1:\"t\"\n".toList) =
      [⟨"u1", "t", true, toEpochMs 2024 1 1 0 0 0 + parseTime "+1h30s".toList⟩] := by
  refine ⟨by decide, by decide, by decide, ?_, by decide⟩
  intro t hh hm hs
  have hni : ∀ c : Char, t.contains c = false → (pyStrip t).contains c = false := by
    intro c hc
    rw [show ∀ l : List Char, (l.contains c = false) = (c ∉ l) from fun l => by simp] at hc ⊢
    exact fun hmem => hc (mem_of_mem_pyStrip hmem)
  have hms : listHasSub ['m', 's'] (pyStrip t) = false := by
    by_contra hcon
    rw [Bool.not_eq_false] at hcon
    have := hasSub_head_mem hcon
    have hm' := hni 'm' hm
    exact absurd this (by simpa using hm')
  simp only [parseTime, hni 'h' hh, hni 'm' hm, hni 's' hs, hms,
    Bool.false_eq_true, if_false]
  rfl

/-- Witness for C8: a token with no unit letters parses to the zero
offset. -/
theorem c8_offset_parsing_witness : parseTime "+499".toList = 0 :=
  c8_offset_parsing.2.2.2.1 "+499".toList (by decide) (by decide) (by decide)

/-- C7: every emitted interval has its end strictly after its start
and its duration exactly the timestamp difference in seconds, and the
defensive non-negative-duration guard never rejects a candidate
pairing (the guarded loop equals the unguarded one). -/
theorem c7_interval_invariants :
    (∀ (evs : List (Nat × Edge)) (m : Matched), m ∈ correlate evs →
      m.s.ts < m.e.ts ∧ m.dur = ((m.e.ts - m.s.ts : ℤ) : ℚ) / 1000 ∧ 0 < m.dur) ∧
    (∀ (ends : List (Nat × Edge)) (used : List Nat) (starts : List Edge),
      corrGo ends used starts = corrGoNG ends used starts) := by
  constructor
  · intro evs m hm
    have h := corrGo_mem hm
    rcases h with ⟨hlt, hdur⟩
    have hcast : ((1000 : ℕ) : ℚ) = (1000 : ℚ) := by norm_num
    refine ⟨hlt, ?_, ?_⟩
    · rw [hdur, Rat.mkRat_eq_div, hcast]
    · rw [hdur, Rat.mkRat_eq_div, hcast]
      apply div_pos
      · exact_mod_cast Int.sub_pos.mpr hlt
      · norm_num
  · exact fun ends used starts => corrGo_eq_NG ends starts used

/-- Witness for C7 at a concrete two-event frame. -/
theorem c7_interval_invariants_witness :
    (⟨⟨"u", "t", true, 0⟩, 1, ⟨"u", "t", false, 1500⟩, mkRat 1500 1000⟩ : Matched).s.ts <
        (⟨⟨"u", "t", true, 0⟩, 1, ⟨"u", "t", false, 1500⟩, mkRat 1500 1000⟩ : Matched).e.ts ∧
      (⟨⟨"u", "t", true, 0⟩, 1, ⟨"u", "t", false, 1500⟩, mkRat 1500 1000⟩ : Matched).dur =
        (((⟨⟨"u", "t", true, 0⟩, 1, ⟨"u", "t", false, 1500⟩, mkRat 1500 1000⟩ : Matched).e.ts -
          (⟨⟨"u", "t", true, 0⟩, 1, ⟨"u", "t", false, 1500⟩, mkRat 1500 1000⟩ : Matched).s.ts : ℤ) : ℚ) / 1000 ∧
      0 < (⟨⟨"u", "t", true, 0⟩, 1, ⟨"u", "t", false, 1500⟩, mkRat 1500 1000⟩ : Matched).dur :=
  c7_interval_invariants.1 [(0, ⟨"u", "t", true, 0⟩), (1, ⟨"u", "t", false, 1500⟩)]
    ⟨⟨"u", "t", true, 0⟩, 1, ⟨"u", "t", false, 1500⟩, mkRat 1500 1000⟩ (by decide)

/-- C1: for a timestamp-sorted end frame, a successful search returns
a candidate end (same key, strictly later, unclaimed) of minimal
timestamp among all candidates; when no candidate remains the search
fails and the start is dropped; no end label is ever claimed twice;
and on the two-starts-two-ends fixture the pairing is in order, never
crossed. -/
theorem c1_greedy_matching :
    (∀ (s : Edge) (used : List Nat) (ends : List (Nat × Edge)) (le : Nat × Edge),
      List.Sorted tsLe ends → findEnd s used ends = some le →
        (le ∈ ends ∧ endCandB s used le = true) ∧
          ∀ x ∈ ends, endCandB s used x = true → le.2.ts ≤ x.2.ts) ∧
    (∀ (s : Edge) (used : List Nat) (ends : List (Nat × Edge)),
      (∀ x ∈ ends, endCandB s used x = false) → findEnd s used ends = none) ∧
    (∀ (ends : List (Nat × Edge)) (starts : List Edge) (used : List Nat),
      ((corrGo ends used starts).map Matched.lbl).Nodup) ∧
    correlate [(0, ⟨"u1", "t", true, 0⟩), (1, ⟨"u1", "t", true, 1000⟩),
        (2, ⟨"u1", "t", false, 2000⟩), (3, ⟨"u1", "t", false, 3000⟩)] =
      [⟨⟨"u1", "t", true, 0⟩, 2, ⟨"u1", "t", false, 2000⟩, mkRat 2000 1000⟩,
        ⟨⟨"u1", "t", true, 1000⟩, 3, ⟨"u1", "t", false, 3000⟩, mkRat 2000 1000⟩] := by
  refine ⟨?_, ?_, ?_, by decide⟩
  · intro s used ends le hs h
    exact ⟨findEnd_mem_cand h, findEnd_min hs h⟩
  · intro s used ends h
    exact findEnd_none h
  · intro ends starts used
    exact (corrGo_lbl_nodup ends starts used).1

/-- Witness for C1 at a concrete one-end frame. -/
theorem c1_greedy_matching_witness :
    (((0 : Nat), (⟨"u", "t", false, 5⟩ : Edge)) ∈ [((0 : Nat), (⟨"u", "t", false, 5⟩ : Edge))] ∧
        endCandB ⟨"u", "t", true, 1⟩ [] (0, ⟨"u", "t", false, 5⟩) = true) ∧
      ∀ x ∈ [((0 : Nat), (⟨"u", "t", false, 5⟩ : Edge))],
        endCandB ⟨"u", "t", true, 1⟩ [] x = true →
          ((0 : Nat), (⟨"u", "t", false, 5⟩ : Edge)).2.ts ≤ x.2.ts :=
  c1_greedy_matching.1 ⟨"u", "t", true, 1⟩ [] [(0, ⟨"u", "t", false, 5⟩)]
    (0, ⟨"u", "t", false, 5⟩) (by simp) (by decide)

/-- A snapshot whose event log opens a wakelock that never closes
within the snapshot. -/
def snapCross1 : Snap :=
  { time := 0
    battery := some "level: 50".toList
    stats := some "RESET:TIME: 2024-01-01-00-00-00\n+1s (1) 123 +longwake=u1:\"t\"\n".toList
    packages := none }

/-- A later snapshot whose event log carries only the closing edge. -/
def snapCross2 : Snap :=
  { time := 1
    battery := some "level: 49".toList
    stats := some "RESET:TIME: 2024-01-01-00-00-00\n+5s (1) 123 -longwake=u1:\"t\"\n".toList
    packages := none }

set_option maxRecDepth 100000 in
/-- C4 counterexample: a start edge from the first snapshot is paired
with an end edge from the second snapshot, producing a wakelock row,
while the claim requires such a start to be dropped. -/
theorem c4_counterexample :
    processAllLogs [snapCross1, snapCross2] =
      some ⟨[(0, 50), (1, 49)], [], [⟨"u1", "t", 4, "System/Other"⟩]⟩ := by
  with_unfolding_all decide

/-- C4 amended: interval correlation is global over the concatenation
of all snapshots' event frames sorted by timestamp, so a series whose
first snapshot holds only a start edge and whose second holds only the
matching later end edge yields exactly the cross-snapshot interval. -/
theorem c4_global_correlation (uid tag : String) (t1 t2 : Int) (h : t1 < t2) :
    correlateAll [[⟨uid, tag, true, t1⟩], [⟨uid, tag, false, t2⟩]] =
      [⟨⟨uid, tag, true, t1⟩, 0, ⟨uid, tag, false, t2⟩, mkRat (t2 - t1) 1000⟩] := by
  have hd : 0 ≤ mkRat (t2 - t1) 1000 := Rat.mkRat_nonneg (by omega) _
  have hc : endCandB ⟨uid, tag, true, t1⟩ [] (0, ⟨uid, tag, false, t2⟩) = true := by
    simp [endCandB, h]
  have hsorted : List.Sorted tsLe
      [((0 : Nat), (⟨uid, tag, true, t1⟩ : Edge)), (0, ⟨uid, tag, false, t2⟩)] := by
    simp [List.sorted_cons, tsLe]
    exact h.le
  unfold correlateAll correlate sortEvents
  rw [show concatEnum [[⟨uid, tag, true, t1⟩], [⟨uid, tag, false, t2⟩]] =
      [((0 : Nat), (⟨uid, tag, true, t1⟩ : Edge)), (0, ⟨uid, tag, false, t2⟩)] from rfl]
  rw [hsorted.insertionSort_eq]
  rw [show List.filter (fun p => !p.2.isStart)
      [((0 : Nat), (⟨uid, tag, true, t1⟩ : Edge)), (0, ⟨uid, tag, false, t2⟩)] =
      [(0, ⟨uid, tag, false, t2⟩)] from rfl]
  rw [show (List.filter (fun p => p.2.isStart)
      [((0 : Nat), (⟨uid, tag, true, t1⟩ : Edge)), (0, ⟨uid, tag, false, t2⟩)]).map Prod.snd =
      [⟨uid, tag, true, t1⟩] from rfl]
  rw [corrGo, findEnd, if_pos hc]
  simp [corrGo, hd]

/-- Witness for C4 amended at concrete timestamps. -/
theorem c4_global_correlation_witness :
    correlateAll [[⟨"u1", "t", true, 0⟩], [⟨"u1", "t", false, 5000⟩]] =
      [⟨⟨"u1", "t", true, 0⟩, 0, ⟨"u1", "t", false, 5000⟩, mkRat (5000 - 0) 1000⟩] :=
  c4_global_correlation "u1" "t" 0 5000 (by decide)

/-- C2 counterexample: with an empty identity map the remap step is
skipped entirely, so a key recognizable as a raw owner id stays in
place instead of becoming the sentinel row the claim requires. -/
theorem c2_counterexample :
    remapPower [] [("u0a5", (1 : ℚ))] = [("u0a5", 1)] ∧
      decide (∃ v ∈ remapPower [] [("u0a5", (1 : ℚ))], v.1 = "System/Other") = false := by
  exact ⟨rfl, by decide⟩

/-- C2 amended: when both the total and the identity map are
non-empty, every key that starts with u0a or is purely numeric is
replaced by its mapped name or the sentinel when absent, other keys
pass through unchanged, and the result is re-aggregated: one row per
post-remap name whose value is the sum of the matching input values. -/
theorem c2_remap_amended (m : List (String × String)) (total : List (String × ℚ))
    (hm : m ≠ []) (ht : total ≠ []) :
    (∀ (n : String) (v : ℚ), (n, v) ∈ remapPower m total ↔
      (n ∈ total.map (fun p => mapUidToName m p.1) ∧
        v = keySum (total.map (fun p => (mapUidToName m p.1, p.2))) n)) ∧
    ((remapPower m total).map Prod.fst).Nodup ∧
    (∀ p ∈ total, ("u0a".toList.isPrefixOf p.1.toList || pyIsDigitStr p.1) = false →
      mapUidToName m p.1 = p.1) ∧
    (∀ p ∈ total, ("u0a".toList.isPrefixOf p.1.toList || pyIsDigitStr p.1) = true →
      mapUidToName m p.1 = (lookupMap m p.1).getD "System/Other") := by
  have hne : (total.isEmpty || m.isEmpty) = false := by
    simp [hm, ht]
  have hrw : remapPower m total =
      groupbySum (total.map (fun p => (mapUidToName m p.1, p.2))) := by
    unfold remapPower
    rw [hne]
    simp
  refine ⟨?_, ?_, ?_, ?_⟩
  · intro n v
    rw [hrw, mem_groupbySum, List.map_map]
    exact Iff.rfl
  · rw [hrw]
    exact groupbySum_keys_nodup _
  · intro p _ hrec
    unfold mapUidToName
    rw [hrec]
    simp
  · intro p _ hrec
    unfold mapUidToName
    rw [hrec]
    simp

/-- Witness for C2 amended: two distinct unmapped owner ids collapse
to one sentinel row carrying their sum. -/
theorem c2_remap_amended_witness :
    ("System/Other", (3 : ℚ)) ∈
        remapPower [("u0a9", "x")] [("u0a1", 1), ("u0a2", 2)] ↔
      ("System/Other" ∈
          ([("u0a1", (1 : ℚ)), ("u0a2", 2)].map
            (fun p => mapUidToName [("u0a9", "x")] p.1)) ∧
        (3 : ℚ) = keySum
          ([("u0a1", (1 : ℚ)), ("u0a2", 2)].map
            (fun p => (mapUidToName [("u0a9", "x")] p.1, p.2))) "System/Other") :=
  (c2_remap_amended [("u0a9", "x")] [("u0a1", 1), ("u0a2", 2)]
    (by decide) (by decide)).1 "System/Other" 3

/-- A snapshot opening and closing wakelocks under two distinct owner
ids with the same tag, neither of them present in the identity map. -/
def snapTwoUids : Snap :=
  { time := 0
    battery := some "level: 50".toList
    stats := some ("RESET:TIME: 2024-01-01-00-00-00\n" ++
      "+1s (1) 123 +longwake=u0a1:\"t\"\n" ++
      "+2s (2) 123 +longwake=u0a2:\"t\"\n" ++
      "+3s (3) 123 -longwake=u0a1:\"t\"\n" ++
      "+4s (4) 123 -longwake=u0a2:\"t\"\n").toList
    packages := some "package:com.foo uid:10005\n".toList }

set_option maxRecDepth 400000 in
/-- C3 counterexample: two wakelock keys whose owner ids both fall
back to the sentinel display name remain two separate rows annotated
with the same name; they are not summed into one row as the claim
requires. -/
theorem c3_counterexample :
    processAllLogs [snapTwoUids] =
      some ⟨[(0, 50)], [],
        [⟨"u0a1", "t", 2, "System/Other"⟩, ⟨"u0a2", "t", 2, "System/Other"⟩]⟩ := by
  with_unfolding_all decide

/-- C3 amended: the orchestrator does not re-aggregate the wakelock
total by display name; it only annotates each grouped (owner id, tag)
row with a mapped application-name column.  The row keys, durations
and row count are independent of the identity map, the row count is
the number of distinct (owner id, tag) keys, and with a non-empty map
each row's annotation is the plain lookup of its owner id with the
sentinel as fallback. -/
theorem c3_annotate_amended :
    (∀ (m1 m2 : List (String × String)) (ps : List Period),
      (wakelockTable m1 ps).map (fun r => (r.uid, r.tag, r.durS)) =
        (wakelockTable m2 ps).map (fun r => (r.uid, r.tag, r.durS))) ∧
    (∀ (m : List (String × String)) (ps : List Period),
      (wakelockTable m ps).length =
        ((ps.map (fun p => toLex (p.uid, p.tag))).dedup).length) ∧
    (∀ (m : List (String × String)) (ps : List Period), m.isEmpty = false →
      ∀ r ∈ wakelockTable m ps, r.appName = (lookupMap m r.uid).getD "System/Other") :=
  ⟨fun m1 m2 ps => wakelockTable_core_indep m1 m2 ps,
    fun m ps => wakelockTable_length m ps,
    fun m ps h => wakelockTable_appName m ps h⟩

/-- Witness for C3 amended at a concrete one-period table. -/
theorem c3_annotate_amended_witness :
    (⟨"u", "t", 1, "System/Other"⟩ : WRow).appName =
      (lookupMap [("a", "b")] (⟨"u", "t", (1 : ℚ), "System/Other"⟩ : WRow).uid).getD
        "System/Other" :=
  c3_annotate_amended.2.2 [("a", "b")] [⟨"u", "t", 1⟩] (by decide)
    ⟨"u", "t", 1, "System/Other"⟩ (by with_unfolding_all decide)

/-- Membership in the outer-merge name union. -/
theorem mem_union_names {power : List (String × ℚ)} {wl : List WRow} {n : String} :
    n ∈ sortKeys ((power.map Prod.fst) ++ ((appWakelocks wl).map Prod.fst)).dedup ↔
      (n ∈ power.map Prod.fst ∨ ∃ w ∈ wl, nameFromTag w.tag = n) := by
  unfold sortKeys
  rw [List.mem_insertionSort, List.mem_dedup, List.mem_append]
  apply or_congr Iff.rfl
  unfold appWakelocks
  rw [groupbySum_keys]
  unfold sortKeys
  rw [List.mem_insertionSort, List.mem_dedup, List.map_map, List.mem_map]
  exact Iff.rfl

/-- C5 counterexample: with a non-empty power table but an empty
wakelock table the combined table is empty, so a component present on
the power side only does not appear, against the outer-union claim. -/
theorem c5_counterexample :
    combinedDf [("comp", (5 : ℚ))] [] = [] ∧
      (combinedDf [("comp", (5 : ℚ))] []).length = 0 := ⟨rfl, rfl⟩

/-- C5 amended: when both the power table and the wakelock table are
non-empty, the combined table has exactly one row for each name in
the union of the power names and the tag-derived wakelock names, each
row carries the power and duration values of its name with zero for a
missing side and the weighted score, and the table is sorted
descending by score; when either side is empty the combined table is
empty. -/
theorem c5_combined_amended (power : List (String × ℚ)) (wl : List WRow)
    (hp : power ≠ []) (hw : wl ≠ []) :
    (∀ n : String, (∃ r ∈ combinedDf power wl, r.name = n) ↔
      (n ∈ power.map Prod.fst ∨ ∃ w ∈ wl, nameFromTag w.tag = n)) ∧
    (∀ r ∈ combinedDf power wl,
      r.powerMah = ((power.find? (fun q => q.1 = r.name)).map Prod.snd).getD 0 ∧
      r.durS = (((appWakelocks wl).find? (fun q => q.1 = r.name)).map Prod.snd).getD 0 ∧
      r.score = r.powerMah * mkRat 7 10 + r.durS * mkRat 3 10) ∧
    List.Sorted (qGe CRow.score) (combinedDf power wl) := by
  have hw' : wl.isEmpty = false := by simp [hw]
  have hp' : power.isEmpty = false := by simp [hp]
  have hrw : combinedDf power wl = sortDescBy CRow.score
      ((sortKeys ((power.map Prod.fst) ++ ((appWakelocks wl).map Prod.fst)).dedup).map
        (combinedRow power (appWakelocks wl))) := by
    unfold combinedDf
    rw [hw', hp']
    simp
  refine ⟨?_, ?_, ?_⟩
  · intro n
    rw [hrw]
    constructor
    · rintro ⟨r, hr, rfl⟩
      rcases List.mem_map.mp ((sortDescBy_perm _ _).subset hr) with ⟨k, hk, rfl⟩
      exact mem_union_names.mp hk
    · intro hn
      refine ⟨combinedRow power (appWakelocks wl) n, ?_, rfl⟩
      apply (sortDescBy_perm _ _).mem_iff.mpr
      exact List.mem_map_of_mem _ (mem_union_names.mpr hn)
  · intro r hr
    rw [hrw] at hr
    rcases List.mem_map.mp ((sortDescBy_perm _ _).subset hr) with ⟨k, -, rfl⟩
    exact ⟨rfl, rfl, rfl⟩
  · rw [hrw]
    exact sortDescBy_sorted _ _

/-- Witness for C5 amended on a one-row merge. -/
theorem c5_combined_amended_witness :
    (∃ r ∈ combinedDf [("a", (1 : ℚ))] [⟨"u", "t", 2, "x"⟩], r.name = "a") ↔
      ("a" ∈ [("a", (1 : ℚ))].map Prod.fst ∨
        ∃ w ∈ [(⟨"u", "t", 2, "x"⟩ : WRow)], nameFromTag w.tag = "a") :=
  (c5_combined_amended [("a", 1)] [⟨"u", "t", 2, "x"⟩] (by decide) (by decide)).1 "a"

/-- A snapshot with a power section and a package map, so in the
pipeline the remap step fires. -/
def snapRemapSort : Snap :=
  { time := 0
    battery := some "level: 50".toList
    stats := some "Estimated power use (mAh)\n  a: 1\n  b: 2\n".toList
    packages := some "package:com.foo uid:10005\n".toList }

set_option maxRecDepth 100000 in
/-- C6 counterexample: after a non-trivial remap the power table comes
out of the final groupby ordered ascending by name, here an ascending
order of values, not the descending-by-value order the claim
requires. -/
theorem c6_counterexample :
    processAllLogs [snapRemapSort] =
      some ⟨[(0, 50)], [("a", 1), ("b", 2)], []⟩ ∧
      decide (List.Sorted (qGe (Prod.snd : String × ℚ → ℚ))
        [("a", (1 : ℚ)), ("b", 2)]) = false := by
  constructor
  · with_unfolding_all decide
  · with_unfolding_all decide

/-- C6 amended: the wakelock table is sorted descending by summed
duration; the power table is sorted descending by value when no remap
occurs, while after a non-trivial remap the final groupby leaves it
sorted ascending by name, so it is always in one of those two
orders. -/
theorem c6_sort_amended (snaps : List Snap) (out : Outputs)
    (h : processAllLogs snaps = some out) :
    List.Sorted (qGe WRow.durS) out.wl ∧
      (List.Sorted (fun a b : String × ℚ => a.1 ≤ b.1) out.power ∨
        List.Sorted (qGe (Prod.snd : String × ℚ → ℚ)) out.power) := by
  simp only [processAllLogs] at h
  split at h
  · injection h with h'
    subst h'
    exact ⟨List.sorted_nil, Or.inl List.sorted_nil⟩
  · split at h
    · exact absurd h (by simp)
    · split at h
      next => exact absurd h (by simp)
      next powerData hpd =>
        split at h
        · injection h with h'
          subst h'
          exact ⟨List.sorted_nil, power_sorted _ _⟩
        · split at h
          · injection h with h'
            subst h'
            exact ⟨List.sorted_nil, power_sorted _ _⟩
          · injection h with h'
            subst h'
            exact ⟨wakelockTable_sorted _ _, power_sorted _ _⟩

set_option maxRecDepth 100000 in
/-- Witness for C6 amended on a one-snapshot series. -/
theorem c6_sort_amended_witness :
    List.Sorted (qGe WRow.durS)
        (⟨[(0, 50)], [("a", (1 : ℚ)), ("b", 2)], []⟩ : Outputs).wl ∧
      (List.Sorted (fun a b : String × ℚ => a.1 ≤ b.1)
          (⟨[(0, 50)], [("a", (1 : ℚ)), ("b", 2)], []⟩ : Outputs).power ∨
        List.Sorted (qGe (Prod.snd : String × ℚ → ℚ))
          (⟨[(0, 50)], [("a", (1 : ℚ)), ("b", 2)], []⟩ : Outputs).power) :=
  c6_sort_amended [snapRemapSort] ⟨[(0, 50)], [("a", 1), ("b", 2)], []⟩
    (by with_unfolding_all decide)

/-- C9: missing or unreadable event text, a missing reset-time marker,
and a missing power-section marker each yield an empty extraction; an
empty snapshot series yields three empty tables rather than an error;
and replacing one snapshot's event text by unreadable text changes
nothing else, so the remaining snapshots are processed unaffected. -/
theorem c9_error_handling :
    parseBatteryHistory none = [] ∧
    (∀ cs : List Char, findResetTime cs = none → parseBatteryHistory (some cs) = []) ∧
    parsePowerConsumers none = some [] ∧
    (∀ cs : List Char, (∀ l ∈ splitLinesPy cs,
        listHasSub "Estimated power use (mAh)".toList l = false) →
      parsePowerConsumers (some cs) = some []) ∧
    processAllLogs [] = some ⟨[], [], []⟩ ∧
    (∀ (xs ys : List Snap) (d : Snap),
      processAllLogs (xs ++ { d with stats := none } :: ys) =
        processAllLogs (xs ++ { d with stats := some [] } :: ys)) := by
  refine ⟨rfl, ?_, rfl, ?_, rfl, ?_⟩
  · intro cs h
    exact parseBatteryHistory_no_marker h
  · intro cs h
    exact parsePowerConsumers_no_marker h
  · intro xs ys d
    exact processAllLogs_stats_middle xs ys _ _ rfl rfl rfl rfl rfl

/-- Witness for C9 on a marker-free text. -/
theorem c9_error_handling_witness :
    parseBatteryHistory (some "no marker here".toList) = [] :=
  c9_error_handling.2.1 "no marker here".toList (by decide)

end Battery
